import Mathlib

set_option linter.unusedVariables false

/-!
Shallow embedding of the `assert` Go package (deliveroo/assert-go),
`assert.go`.  Go interface values are modelled by the inductive `GoVal`;
panics are modelled by `Except String` (the payload is the panic message);
the `testing.T` collaborator is modelled by returning the list of messages
reported through `t.Error` together with the boolean result.  The external
collaborators (go-cmp, encoding/json, the Go runtime and `fmt`) are
modelled at the interface level the code relies on: go-cmp as an ordered
list of partial comparison rules falling back to structural deep equality,
with `cmp.Diff` returning an empty diff exactly on equality; `fmt`/`strconv`
rendering as simple deterministic string functions.
-/

namespace AssertGo

/-- Model of a Go `interface{}` value as it flows through the assertion
library: the untyped nil interface, scalars, strings, error values
(compared by message, dynamic kind `ptr`), slices, string-keyed maps,
pointers and structs. -/
inductive GoVal where
  | vnil
  | vbool (b : Bool)
  | vint (n : Int)
  | vfloat (q : Rat)
  | vstr (s : String)
  | verr (msg : String)
  | vslice (xs : List GoVal)
  | vmap (kvs : List (String × GoVal))
  | vptr (p : Option GoVal)
  | vstruct (fields : List (String × GoVal))

mutual

/-- Structural deep equality on values; models `reflect.DeepEqual` and the
option-free part of `cmp.Equal` (pointers compared by referent). -/
def deepEq : GoVal → GoVal → Bool
  | .vnil, .vnil => true
  | .vbool a, .vbool b => a == b
  | .vint a, .vint b => a == b
  | .vfloat a, .vfloat b => a == b
  | .vstr a, .vstr b => a == b
  | .verr a, .verr b => a == b
  | .vslice a, .vslice b => deepEqList a b
  | .vmap a, .vmap b => deepEqKVs a b
  | .vptr none, .vptr none => true
  | .vptr (some a), .vptr (some b) => deepEq a b
  | .vstruct a, .vstruct b => deepEqKVs a b
  | _, _ => false

/-- Elementwise deep equality of slices. -/
def deepEqList : List GoVal → List GoVal → Bool
  | [], [] => true
  | a :: ra, b :: rb => deepEq a b && deepEqList ra rb
  | _, _ => false

/-- Fieldwise deep equality of key/value lists. -/
def deepEqKVs : List (String × GoVal) → List (String × GoVal) → Bool
  | [], [] => true
  | (k, v) :: ra, (l, w) :: rb => k == l && deepEq v w && deepEqKVs ra rb
  | _, _ => false

end

/-- Dynamic kinds relevant to the library, modelling `reflect.Kind`. -/
inductive GoKind where
  | kBool
  | kInt
  | kFloat
  | kString
  | kSlice
  | kMap
  | kPtr
  | kStruct
  deriving DecidableEq

/-- Kind of the dynamic type of an interface value, modelling
`reflect.TypeOf(v).Kind()`.  For the untyped nil interface,
`reflect.TypeOf` returns nil and calling `Kind` on it panics,
modelled by `none`. -/
def kindOf : GoVal → Option GoKind
  | .vnil => none
  | .vbool _ => some .kBool
  | .vint _ => some .kInt
  | .vfloat _ => some .kFloat
  | .vstr _ => some .kString
  | .verr _ => some .kPtr
  | .vslice _ => some .kSlice
  | .vmap _ => some .kMap
  | .vptr _ => some .kPtr
  | .vstruct _ => some .kStruct

/-- Rendering of a kind, modelling `reflect.Kind.String()`. -/
def kindName : GoKind → String
  | .kBool => "bool"
  | .kInt => "int"
  | .kFloat => "float64"
  | .kString => "string"
  | .kSlice => "slice"
  | .kMap => "map"
  | .kPtr => "ptr"
  | .kStruct => "struct"

/-- Panic message of the Go runtime for a nil dereference, raised by
`reflect.TypeOf(nil).Kind()`. -/
def nilDerefMsg : String := "runtime error: invalid memory address or nil pointer dereference"

/-- Panic message of the Go runtime for an out-of-bounds index. -/
def idxRangeMsg : String := "runtime error: index out of range"

/-- Panic message of the Go runtime for a failed type assertion such as
`want.(string)`. -/
def ifaceConvMsg : String := "interface conversion: interface is not string"

mutual

/-- Zero value of the dynamic type of a value, modelling
`reflect.Zero(reflect.TypeOf(v)).Interface()`. -/
def zeroOf : GoVal → GoVal
  | .vnil => .vnil
  | .vbool _ => .vbool false
  | .vint _ => .vint 0
  | .vfloat _ => .vfloat 0
  | .vstr _ => .vstr ""
  | .verr _ => .vptr none
  | .vslice _ => .vslice []
  | .vmap _ => .vmap []
  | .vptr _ => .vptr none
  | .vstruct fs => .vstruct (zeroFields fs)

/-- Zero values of struct fields. -/
def zeroFields : List (String × GoVal) → List (String × GoVal)
  | [] => []
  | (k, v) :: rest => (k, zeroOf v) :: zeroFields rest

end

/-- Model of `isNil`: nil, or a nil-able reference kind holding no
referent. -/
def isNil : GoVal → Bool
  | .vnil => true
  | .vptr p => p.isNone
  | _ => false

/-- Model of `isEmpty`: nil, zero length for the length-bearing kinds,
recursion through non-nil pointers, and `reflect.DeepEqual` with the zero
value for every other kind.  An error value has dynamic kind `ptr`, is
never nil here, and its referent struct is zero exactly when the message
is empty. -/
def isEmpty : GoVal → Bool
  | .vnil => true
  | .vslice xs => xs.isEmpty
  | .vmap kvs => kvs.isEmpty
  | .vstr s => s.toList.isEmpty
  | .vptr none => true
  | .vptr (some v) => isEmpty v
  | .verr m => m.toList.isEmpty
  | v => deepEq v (zeroOf v)

/-- Quoting of a string, modelling the `%q` verb / `strconv.Quote`
(escaping of special characters is not modelled). -/
def goQuote (s : String) : String := "\"" ++ s ++ "\""

mutual

/-- Rendering of a value, modelling the `%v` verb of `fmt.Sprint`
(an external collaborator; pointer addresses are not modelled). -/
def goSprint : GoVal → String
  | .vnil => "<nil>"
  | .vbool b => if b then "true" else "false"
  | .vint n => toString n
  | .vfloat q => toString q
  | .vstr s => s
  | .verr m => m
  | .vslice xs => "[" ++ sprintList xs ++ "]"
  | .vmap kvs => "map[" ++ sprintKVs kvs ++ "]"
  | .vptr none => "<nil>"
  | .vptr (some v) => "&" ++ goSprint v
  | .vstruct fs => "\x7b" ++ sprintKVs fs ++ "\x7d"

/-- Space-separated rendering of slice elements. -/
def sprintList : List GoVal → String
  | [] => ""
  | [x] => goSprint x
  | x :: rest => goSprint x ++ " " ++ sprintList rest

/-- Rendering of key/value entries. -/
def sprintKVs : List (String × GoVal) → String
  | [] => ""
  | [(k, v)] => k ++ ":" ++ goSprint v
  | (k, v) :: rest => k ++ ":" ++ goSprint v ++ " " ++ sprintKVs rest

end

/-- Model of `fmtVal`: strings are quoted via `strconv.Quote`, everything
else is rendered with `fmt.Sprint`. -/
def fmtVal : GoVal → String
  | .vstr s => goQuote s
  | v => goSprint v

/-- Substring containment, modelling `strings.Contains`. -/
def strContains (s sub : String) : Bool := decide (sub.toList <:+: s.toList)

/-- Test for a leading pattern, modelling `strings.HasPrefix`. -/
def goStartsWith (s pre : String) : Bool := pre.toList.isPrefixOf s.toList

/-- Whitespace recognised by `strings.TrimSpace` (ASCII portion). -/
def isSpaceChar (c : Char) : Bool := c == ' ' || c == '\t' || c == '\n' || c == '\r'

/-- Model of `strings.TrimSpace`. -/
def goTrimSpace (s : String) : String :=
  String.mk (((s.toList.dropWhile isSpaceChar).reverse.dropWhile isSpaceChar).reverse)

/-- Boolean linear order on strings by code points, standing in for Go's
byte-wise string order used when `json.Marshal` sorts object keys. -/
def goListLe : List Char → List Char → Bool
  | [], _ => true
  | _ :: _, [] => false
  | c :: cs, d :: ds =>
    if c.toNat < d.toNat then true
    else if d.toNat < c.toNat then false
    else goListLe cs ds

/-- Key order for canonical maps. -/
def keyLe (a b : String) : Bool := goListLe a.toList b.toList

/-- One go-cmp option: a partial comparison rule.  `none` means the rule
does not apply to this pair; `some (Except.error e)` models a custom
comparator that panics with message `e`; `some (Except.ok b)` is its
verdict. -/
def CmpOption : Type := GoVal → GoVal → Option (Except String Bool)

/-- First applicable rule of an ordered option list. -/
def applyOpts : List CmpOption → GoVal → GoVal → Option (Except String Bool)
  | [], _, _ => none
  | o :: rest, x, y =>
    match o x y with
    | some r => some r
    | none => applyOpts rest x y

/-- Model of `cmp.Equal(x, y, opts...)`: the first applicable rule decides
(possibly panicking), otherwise structural deep equality. -/
def cmpEqual (opts : List CmpOption) (x y : GoVal) : Except String Bool :=
  match applyOpts opts x y with
  | some r => r
  | none => Except.ok (deepEq x y)

/-- Deterministic nonempty rendering standing in for go-cmp's diff text
(an external collaborator; only emptiness of the diff is relied upon). -/
def renderDiff (x y : GoVal) : String :=
  "- " ++ goSprint x ++ "\n+ " ++ goSprint y

/-- Model of `cmp.Diff(x, y, opts...)`: empty exactly when equal, and
panicking exactly when the comparison panics. -/
def cmpDiff (opts : List CmpOption) (x y : GoVal) : Except String String :=
  match cmpEqual opts x y with
  | Except.error e => Except.error e
  | Except.ok b => Except.ok (if b then "" else renderDiff x y)

/-- Built-in default rule of `defaultOpts`: two error values are equal iff
their messages are equal. -/
def errComparerOpt : CmpOption := fun x y =>
  match x, y with
  | .verr a, .verr b => some (Except.ok (a == b))
  | _, _ => none

/-- Initial contents of the package-level `defaultOpts` variable. -/
def defaultOpts : List CmpOption := [errComparerOpt]

/-- Model of `RegisterOptions`: the state change applied to the
package-level default option list, `defaultOpts = append(defaultOpts,
opts...)`. -/
def RegisterOptions (cur opts : List CmpOption) : List CmpOption := cur ++ opts

/-- Outcome of the source inspection performed by the closure returned by
`getArg`: the caller's file may be unreadable, may fail to parse, may
contain no matching call expression on the recorded line, or the argument
text may be found. -/
inductive ArgSrc where
  | unreadable
  | parseError
  | noMatch
  | found (s : String)

/-- Model of running the closure returned by `getArg`: unreadable sources
and parse failures panic with the underlying error; when no matching call
expression is found the label stays the empty string. -/
def getArgRun : ArgSrc → Except String String
  | .unreadable => Except.error "open source file: no such file or directory"
  | .parseError => Except.error "source parse error"
  | .noMatch => Except.ok ""
  | .found s => Except.ok s

/-- Label placement used by the message builders that join with ": ". -/
def labelColonMsg (expr msg : String) : String :=
  if expr ≠ "" then expr ++ ": " ++ msg else msg

/-- Label placement used by the message builders that join with " ". -/
def labelSpaceMsg (expr msg : String) : String :=
  if expr ≠ "" then expr ++ " " ++ msg else msg

/-- Model of `formatDiff`. -/
def formatDiff (expr pre diff : String) : String :=
  labelSpaceMsg expr (pre ++ goTrimSpace diff)

/-- Model of `assertEqual`.  The deferred `recover` converts any panic in
the body (a panicking custom comparator inside `cmp.Diff`, or the label
resolver) into a `"diff error"` report, and the function then returns the
zero value `false`.  The label thunk is forced only when the diff is
nonempty. -/
def assertEqualRun (expr : Except String String) (opts defaults : List CmpOption)
    (got want : GoVal) : Bool × List String :=
  match cmpDiff (opts ++ defaults) got want with
  | Except.error e => (false, ["diff error: " ++ e])
  | Except.ok diff =>
    if diff = "" then (true, [])
    else
      match expr with
      | Except.error e => (false, ["diff error: " ++ e])
      | Except.ok ex => (false, [formatDiff ex "(-got +want): " diff])

/-- Model of `assertNotEqual`, with the same recover behaviour. -/
def assertNotEqualRun (expr : Except String String) (opts defaults : List CmpOption)
    (got notWant : GoVal) : Bool × List String :=
  match cmpDiff (opts ++ defaults) got notWant with
  | Except.error e => (false, ["diff error: " ++ e])
  | Except.ok diff =>
    if diff = "" then
      match expr with
      | Except.error e => (false, ["diff error: " ++ e])
      | Except.ok ex => (false, [labelColonMsg ex ("should not equal " ++ goSprint notWant)])
    else (true, [])

/-- Model of `Equal`. -/
def EqualRun (arg : ArgSrc) (opts defaults : List CmpOption) (got want : GoVal) :
    Bool × List String :=
  assertEqualRun (getArgRun arg) opts defaults got want

/-- Model of `NotEqual`. -/
def NotEqualRun (arg : ArgSrc) (opts defaults : List CmpOption) (got want : GoVal) :
    Bool × List String :=
  assertNotEqualRun (getArgRun arg) opts defaults got want

/-- Elements of a slice value, modelling `castInterfaceToSlice` (only ever
applied to values of slice kind). -/
def sliceElems : GoVal → List GoVal
  | .vslice xs => xs
  | _ => []

/-- Loop of `sliceContains`: note that the source appends `defaultOpts` to
`opts` once per iteration, so the option list passed to `cmp.Equal` (and,
after the loop, to `cmp.Diff`) grows with the index. -/
def sliceContainsLoop (want : GoVal) (defaults : List CmpOption) :
    List GoVal → List CmpOption → Except String (Bool × List CmpOption)
  | [], opts => Except.ok (false, opts)
  | g :: rest, opts =>
    let opts2 := opts ++ defaults
    match cmpEqual opts2 g want with
    | Except.error e => Except.error e
    | Except.ok true => Except.ok (true, opts2)
    | Except.ok false => sliceContainsLoop want defaults rest opts2

/-- Model of `sliceContains`. -/
def sliceContains (expr : String) (want : GoVal) (opts defaults : List CmpOption)
    (got : List GoVal) : Except String (Bool × List String) :=
  match sliceContainsLoop want defaults got opts with
  | Except.error e => Except.error e
  | Except.ok (true, _) => Except.ok (true, [])
  | Except.ok (false, opts2) =>
    match cmpDiff opts2 want GoVal.vnil with
    | Except.error e => Except.error e
    | Except.ok diff => Except.ok (false, [formatDiff expr "does not contain: " diff])

/-- Model of `Contains`.  The kind switch on `got` panics on the untyped
nil interface; in the string case the type assertion `want.(string)`
panics when `want` is not a string; in the slice case the label is
resolved eagerly (`getArg(1)()` is an argument of the `sliceContains`
call); in the string and default cases it is resolved only on failure. -/
def ContainsRun (arg : ArgSrc) (opts defaults : List CmpOption) (got want : GoVal) :
    Except String (Bool × List String) :=
  match kindOf got with
  | none => Except.error nilDerefMsg
  | some GoKind.kString =>
    match got, want with
    | GoVal.vstr g, GoVal.vstr w =>
      if strContains g w then Except.ok (true, [])
      else
        match getArgRun arg with
        | Except.error e => Except.error e
        | Except.ok ex =>
          Except.ok (false,
            [labelSpaceMsg ex ("(" ++ goQuote g ++ ") does not contain: " ++ goQuote w)])
    | _, _ => Except.error ifaceConvMsg
  | some GoKind.kSlice =>
    match getArgRun arg with
    | Except.error e => Except.error e
    | Except.ok ex => sliceContains ex want opts defaults (sliceElems got)
  | some k =>
    match getArgRun arg with
    | Except.error e => Except.error e
    | Except.ok ex =>
      Except.ok (false,
        [labelSpaceMsg ex ("has unsupported type for Contains: " ++ goQuote (kindName k))])

/-- Loop of `sliceContainsAllOf`: index of the first element of `got`
comparing equal to the target, with the comparison allowed to panic. -/
def findIdxE (p : GoVal → Except String Bool) : List GoVal → Except String (Option Nat)
  | [] => Except.ok none
  | g :: rest =>
    match p g with
    | Except.error e => Except.error e
    | Except.ok true => Except.ok (some 0)
    | Except.ok false =>
      match findIdxE p rest with
      | Except.error e => Except.error e
      | Except.ok none => Except.ok none
      | Except.ok (some i) => Except.ok (some (i + 1))

/-- Model of the recursive `sliceContainsAllOf` helper.  The function
indexes `want[0]` unconditionally, so a call with an empty `want` panics
with an index-out-of-range runtime error; recursive calls always pass a
nonempty remainder.  `append(got[:i], got[i+1:]...)` removes element `i`. -/
def sliceContainsAllOf (ceq : GoVal → GoVal → Except String Bool) :
    List GoVal → List GoVal → List GoVal → Except String (List GoVal)
  | _, [], _ => Except.error idxRangeMsg
  | got, w :: ws, missing =>
    match findIdxE (fun g => ceq g w) got with
    | Except.error e => Except.error e
    | Except.ok (some i) =>
      if ws.length > 0 then sliceContainsAllOf ceq (got.eraseIdx i) ws missing
      else Except.ok missing
    | Except.ok none =>
      if ws.length > 0 then sliceContainsAllOf ceq got ws (missing ++ [w])
      else Except.ok (missing ++ [w])

/-- Model of `SliceContainsAllOf`.  The kind checks panic on untyped nil
operands (short-circuit order: `got` first).  Note that neither this
wrapper nor its helper consults the package-level `defaultOpts`: only the
per-call options are passed to go-cmp, so the `_defaults` state is
ignored. -/
def SliceContainsAllOfRun (arg : ArgSrc) (opts _defaults : List CmpOption)
    (got want : GoVal) : Except String (Bool × List String) :=
  match kindOf got with
  | none => Except.error nilDerefMsg
  | some kg =>
    if kg ≠ GoKind.kSlice then Except.ok (false, ["SliceContainsAllOf requires slice"])
    else
      match kindOf want with
      | none => Except.error nilDerefMsg
      | some kw =>
        if kw ≠ GoKind.kSlice then Except.ok (false, ["SliceContainsAllOf requires slice"])
        else
          match sliceContainsAllOf (cmpEqual opts) (sliceElems got) (sliceElems want) [] with
          | Except.error e => Except.error e
          | Except.ok missing =>
            if missing.length > 0 then
              match cmpDiff opts (GoVal.vslice missing) GoVal.vnil with
              | Except.error e => Except.error e
              | Except.ok diff =>
                match getArgRun arg with
                | Except.error e => Except.error e
                | Except.ok ex => Except.ok (false, [formatDiff ex "does not contain: " diff])
            else Except.ok (true, [])

/-- Model of `NotNil`. -/
def NotNilRun (arg : ArgSrc) (got : GoVal) : Except String (Bool × List String) :=
  if isNil got then
    match getArgRun arg with
    | Except.error e => Except.error e
    | Except.ok ex => Except.ok (false, [labelColonMsg ex "got <nil>, want not nil"])
  else Except.ok (true, [])

/-- Model of `Empty`. -/
def EmptyRun (arg : ArgSrc) (got : GoVal) : Except String (Bool × List String) :=
  if !isEmpty got then
    match getArgRun arg with
    | Except.error e => Except.error e
    | Except.ok ex =>
      Except.ok (false, [labelColonMsg ex ("got " ++ fmtVal got ++ ", want empty")])
  else Except.ok (true, [])

/-- Model of `NotEmpty`. -/
def NotEmptyRun (arg : ArgSrc) (got : GoVal) : Except String (Bool × List String) :=
  if isEmpty got then
    match getArgRun arg with
    | Except.error e => Except.error e
    | Except.ok ex =>
      Except.ok (false, [labelColonMsg ex ("got " ++ fmtVal got ++ ", want not empty")])
  else Except.ok (true, [])

/-- Ordered insertion by key, used to canonicalise the unordered Go maps
produced by the JSON round trip (`json.Marshal` orders object keys; the
resulting `map[string]interface\x7b\x7d` has no observable order, so key-sorted
association lists are its canonical representation here). -/
def insertByKey (p : String × GoVal) : List (String × GoVal) → List (String × GoVal)
  | [] => [p]
  | q :: rest => if keyLe p.1 q.1 then p :: q :: rest else q :: insertByKey p rest

/-- Insertion sort of key/value entries by key. -/
def sortByKey : List (String × GoVal) → List (String × GoVal)
  | [] => []
  | p :: rest => insertByKey p (sortByKey rest)

mutual

/-- Semantics of the marshal/unmarshal round trip of `toJSON` on the value
forms of the model: numbers become float64, pointers are followed (nil
pointers become JSON null), an error value marshals as an empty object (no
exported fields), structs and maps become canonical string-keyed maps. -/
def marshalRT : GoVal → GoVal
  | .vnil => .vnil
  | .vbool b => .vbool b
  | .vint n => .vfloat n
  | .vfloat q => .vfloat q
  | .vstr s => .vstr s
  | .verr _ => .vmap []
  | .vslice xs => .vslice (marshalRTList xs)
  | .vmap kvs => .vmap (sortByKey (marshalRTKVs kvs))
  | .vptr none => .vnil
  | .vptr (some v) => marshalRT v
  | .vstruct fs => .vmap (sortByKey (marshalRTKVs fs))

/-- Round trip of slice elements. -/
def marshalRTList : List GoVal → List GoVal
  | [] => []
  | x :: rest => marshalRT x :: marshalRTList rest

/-- Round trip of the values of key/value entries. -/
def marshalRTKVs : List (String × GoVal) → List (String × GoVal)
  | [] => []
  | (k, v) :: rest => (k, marshalRT v) :: marshalRTKVs rest

end

/-- Model of `toJSON`, parametrised by the JSON text parser
(`json.Unmarshal` of a raw string, an external collaborator; `none` models
the parse failure that `toJSON` turns into a panic).  A string beginning
with a brace or a bracket is parsed as raw JSON text; every other value
goes through the marshal/unmarshal round trip. -/
def toJSON (parse : String → Option GoVal) : GoVal → Option GoVal
  | GoVal.vstr s =>
    if goStartsWith s "\x7b" || goStartsWith s "[" then parse s
    else some (marshalRT (GoVal.vstr s))
  | v => some (marshalRT v)

/-- Key-sortedness of an association list. -/
def sortedByKey (l : List (String × GoVal)) : Prop :=
  List.Chain' (fun a b => keyLe a.1 b.1 = true) l

/-- Values on which the string special case of `toJSON` cannot fire: every
value except a string beginning with a brace or a bracket. -/
def notTopRawStr : GoVal → Prop
  | GoVal.vstr s => (goStartsWith s "\x7b" || goStartsWith s "[") = false
  | _ => True

/-- Scan for the index of the first element satisfying a predicate
(pure counterpart of `findIdxE`). -/
def goFindIdx (p : GoVal → Bool) : List GoVal → Option Nat
  | [] => none
  | g :: rest => if p g then some 0 else (goFindIdx p rest).map (· + 1)

/-- Left-to-right removal of the first element equal to the target, the
consumption step of the greedy procedure described by the specification. -/
def removeFirst (eq : GoVal → GoVal → Bool) : List GoVal → GoVal → Option (List GoVal)
  | [], _ => none
  | g :: rest, w =>
    if eq g w then some rest
    else (removeFirst eq rest w).map (fun l => g :: l)

/-- Greedy first-fit missing list, written from the specification's words:
iterate `want` in order; for each wanted element scan the remaining
unmatched `got` elements left-to-right and consume the first equal one; if
none is found, add the wanted element to the missing accumulator. -/
def greedyMissingSpec (eq : GoVal → GoVal → Bool) : List GoVal → List GoVal → List GoVal
  | _, [] => []
  | got, w :: ws =>
    match removeFirst eq got w with
    | some got2 => greedyMissingSpec eq got2 ws
    | none => w :: greedyMissingSpec eq got ws

/-- A registered comparator option that always reports equality. -/
def alwaysEqOpt : CmpOption := fun _ _ => some (Except.ok true)

/-- A custom comparator that always panics during comparison. -/
def panicOpt : CmpOption := fun _ _ => some (Except.error "bad custom comparer")

/-- Concrete parser behaviour of `json.Unmarshal` at the input `"[1]"`,
used for concrete evaluations of `toJSON`. -/
def jsonParse1 : String → Option GoVal :=
  fun s => if s = "[1]" then some (GoVal.vslice [GoVal.vfloat 1]) else none

/-- Parser that rejects every input, used as a concrete instance where the
raw-string case is not exercised. -/
def jsonParseNone : String → Option GoVal := fun _ => none

/-- Kinds routed to the default branch of `isEmpty`: neither nil nor a
length-bearing kind (array/chan/map/slice/string) nor a pointer kind. -/
def defaultKind : GoVal → Bool
  | .vbool _ => true
  | .vint _ => true
  | .vfloat _ => true
  | .vstruct _ => true
  | _ => false

/-- Strong induction on the size of a value, used to recurse through the
nested lists inside `GoVal`. -/
theorem sizeInd {motive : GoVal → Prop}
    (ind : ∀ v, (∀ w, sizeOf w < sizeOf v → motive w) → motive v) : ∀ v, motive v := by
  intro v
  have h : ∀ n (u : GoVal), sizeOf u ≤ n → motive u := by
    intro n
    induction n with
    | zero =>
      intro u hu
      exact ind u (fun w hw => absurd (Nat.lt_of_lt_of_le hw hu) (Nat.not_lt_zero _))
    | succ n ih =>
      intro u hu
      exact ind u (fun w hw => ih w (Nat.le_of_lt_succ (Nat.lt_of_lt_of_le hw hu)))
  exact h (sizeOf v) v (Nat.le_refl _)

theorem sizeOf_lt_of_mem_list {x : GoVal} {xs : List GoVal} (h : x ∈ xs) :
    sizeOf x < sizeOf (GoVal.vslice xs) := by
  have := List.sizeOf_lt_of_mem h
  simp only [GoVal.vslice.sizeOf_spec]
  omega

theorem sizeOf_val_lt_of_mem_kvs {k : String} {v : GoVal} {kvs : List (String × GoVal)}
    (h : (k, v) ∈ kvs) : sizeOf v < 1 + sizeOf kvs := by
  have h1 := List.sizeOf_lt_of_mem h
  have h2 : sizeOf (k, v) = 1 + sizeOf k + sizeOf v := rfl
  have h3 : 0 < sizeOf k := by
    cases k
    simp_arith
  omega

theorem deepEqList_refl {xs : List GoVal} (ih : ∀ x ∈ xs, deepEq x x = true) :
    deepEqList xs xs = true := by
  induction xs with
  | nil => rfl
  | cons x rest ihr =>
    simp only [deepEqList, Bool.and_eq_true]
    exact ⟨ih x (List.mem_cons_self x rest), ihr (fun y hy => ih y (List.mem_cons_of_mem x hy))⟩

theorem deepEqKVs_refl {kvs : List (String × GoVal)}
    (ih : ∀ p ∈ kvs, deepEq p.2 p.2 = true) : deepEqKVs kvs kvs = true := by
  induction kvs with
  | nil => rfl
  | cons p rest ihr =>
    obtain ⟨k, v⟩ := p
    simp only [deepEqKVs, Bool.and_eq_true, beq_self_eq_true]
    exact ⟨⟨trivial, ih (k, v) (List.mem_cons_self _ rest)⟩,
      ihr (fun q hq => ih q (List.mem_cons_of_mem _ hq))⟩

/-- Deep equality is reflexive. -/
theorem deepEq_refl : ∀ v, deepEq v v = true := by
  apply sizeInd
  intro v ih
  match v with
  | .vnil => rfl
  | .vbool b => simp [deepEq]
  | .vint n => simp [deepEq]
  | .vfloat q => simp [deepEq]
  | .vstr s => simp [deepEq]
  | .verr m => simp [deepEq]
  | .vptr none => rfl
  | .vptr (some a) =>
    have : sizeOf a < sizeOf (GoVal.vptr (some a)) := by
      simp only [GoVal.vptr.sizeOf_spec, Option.some.sizeOf_spec]
      omega
    simpa [deepEq] using ih a this
  | .vslice xs =>
    simpa [deepEq] using deepEqList_refl (fun x hx => ih x (sizeOf_lt_of_mem_list hx))
  | .vmap kvs =>
    have : ∀ p ∈ kvs, deepEq p.2 p.2 = true := by
      intro p hp
      obtain ⟨k, w⟩ := p
      apply ih
      have := sizeOf_val_lt_of_mem_kvs hp
      simp only [GoVal.vmap.sizeOf_spec]
      omega
    simpa [deepEq] using deepEqKVs_refl this
  | .vstruct fs =>
    have : ∀ p ∈ fs, deepEq p.2 p.2 = true := by
      intro p hp
      obtain ⟨k, w⟩ := p
      apply ih
      have := sizeOf_val_lt_of_mem_kvs hp
      simp only [GoVal.vstruct.sizeOf_spec]
      omega
    simpa [deepEq] using deepEqKVs_refl this

theorem deepEqList_sound {xs : List GoVal}
    (ih : ∀ x ∈ xs, ∀ y, deepEq x y = true → x = y) :
    ∀ ys, deepEqList xs ys = true → xs = ys := by
  induction xs with
  | nil => intro ys h; cases ys with
    | nil => rfl
    | cons b rb => simp [deepEqList] at h
  | cons a ra ihr =>
    intro ys h
    cases ys with
    | nil => simp [deepEqList] at h
    | cons b rb =>
      simp only [deepEqList, Bool.and_eq_true] at h
      have h1 := ih a (List.mem_cons_self a ra) b h.1
      have h2 := ihr (fun x hx => ih x (List.mem_cons_of_mem a hx)) rb h.2
      rw [h1, h2]

theorem deepEqKVs_sound {kvs : List (String × GoVal)}
    (ih : ∀ p ∈ kvs, ∀ y, deepEq p.2 y = true → p.2 = y) :
    ∀ other, deepEqKVs kvs other = true → kvs = other := by
  induction kvs with
  | nil => intro other h; cases other with
    | nil => rfl
    | cons q rq => simp [deepEqKVs] at h
  | cons p rp ihr =>
    intro other h
    cases other with
    | nil =>
      obtain ⟨k, v⟩ := p
      simp [deepEqKVs] at h
    | cons q rq =>
      obtain ⟨k, v⟩ := p
      obtain ⟨l, w⟩ := q
      simp only [deepEqKVs, Bool.and_eq_true, beq_iff_eq] at h
      have h1 := ih (k, v) (List.mem_cons_self _ rp) w h.1.2
      have h2 := ihr (fun x hx => ih x (List.mem_cons_of_mem _ hx)) rq h.2
      simp only at h1
      rw [h.1.1, h1, h2]

/-- Deep equality implies equality. -/
theorem deepEq_sound : ∀ x, ∀ y, deepEq x y = true → x = y := by
  apply sizeInd
  intro x ih y h
  match x, y with
  | .vnil, .vnil => rfl
  | .vbool a, .vbool b => simp_all [deepEq]
  | .vint a, .vint b => simp_all [deepEq]
  | .vfloat a, .vfloat b => simp_all [deepEq]
  | .vstr a, .vstr b => simp_all [deepEq]
  | .verr a, .verr b => simp_all [deepEq]
  | .vptr none, .vptr none => rfl
  | .vptr (some a), .vptr (some b) =>
    have hs : sizeOf a < sizeOf (GoVal.vptr (some a)) := by
      simp only [GoVal.vptr.sizeOf_spec, Option.some.sizeOf_spec]
      omega
    have := ih a hs b (by simpa [deepEq] using h)
    rw [this]
  | .vslice xs, .vslice ys =>
    have := deepEqList_sound
      (fun x hx => ih x (sizeOf_lt_of_mem_list hx)) ys (by simpa [deepEq] using h)
    rw [this]
  | .vmap kvs, .vmap other =>
    have hih : ∀ p ∈ kvs, ∀ y, deepEq p.2 y = true → p.2 = y := by
      intro p hp
      obtain ⟨k, w⟩ := p
      apply ih
      have := sizeOf_val_lt_of_mem_kvs hp
      simp only [GoVal.vmap.sizeOf_spec]
      omega
    have := deepEqKVs_sound hih other (by simpa [deepEq] using h)
    rw [this]
  | .vstruct fs, .vstruct other =>
    have hih : ∀ p ∈ fs, ∀ y, deepEq p.2 y = true → p.2 = y := by
      intro p hp
      obtain ⟨k, w⟩ := p
      apply ih
      have := sizeOf_val_lt_of_mem_kvs hp
      simp only [GoVal.vstruct.sizeOf_spec]
      omega
    have := deepEqKVs_sound hih other (by simpa [deepEq] using h)
    rw [this]
  | .vnil, .vbool _ => simp [deepEq] at h
  | .vnil, .vint _ => simp [deepEq] at h

/-- Deep equality decides equality of values. -/
theorem deepEq_iff (x y : GoVal) : deepEq x y = true ↔ x = y :=
  ⟨deepEq_sound x y, fun h => h ▸ deepEq_refl x⟩

theorem goListLe_total : ∀ l m, goListLe l m = false → goListLe m l = true := by
  intro l
  induction l with
  | nil => intro m h; simp [goListLe] at h
  | cons c cs ih =>
    intro m h
    cases m with
    | nil => rfl
    | cons d ds =>
      simp only [goListLe] at h ⊢
      by_cases h1 : c.toNat < d.toNat
      · simp [h1] at h
      · by_cases h2 : d.toNat < c.toNat
        · simp [h2]
        · simp only [h1, if_false, h2] at h
          simp only [h1, if_false, h2]
          exact ih ds h

theorem keyLe_total (a b : String) (h : keyLe a b = false) : keyLe b a = true :=
  goListLe_total a.toList b.toList h

theorem mem_insertByKey {x p : String × GoVal} :
    ∀ {l : List (String × GoVal)}, x ∈ insertByKey p l → x = p ∨ x ∈ l := by
  intro l
  induction l with
  | nil => intro h; simpa [insertByKey] using h
  | cons q rest ih =>
    intro h
    simp only [insertByKey] at h
    by_cases hle : keyLe p.1 q.1
    · simp only [hle, if_true, List.mem_cons] at h
      rcases h with h | h | h
      · exact Or.inl h
      · exact Or.inr (by simp [h])
      · exact Or.inr (List.mem_cons_of_mem _ h)
    · rw [if_neg hle] at h
      simp only [List.mem_cons] at h
      rcases h with h | h
      · exact Or.inr (by simp [h])
      · rcases ih h with h | h
        · exact Or.inl h
        · exact Or.inr (List.mem_cons_of_mem _ h)

theorem head?_insertByKey (p : String × GoVal) :
    ∀ l, (insertByKey p l).head? = some p ∨ (insertByKey p l).head? = l.head? := by
  intro l
  cases l with
  | nil => exact Or.inl rfl
  | cons q rest =>
    simp only [insertByKey]
    by_cases hle : keyLe p.1 q.1
    · simp [hle]
    · simp [hle]

theorem insertByKey_sorted {p : String × GoVal} :
    ∀ {l : List (String × GoVal)}, sortedByKey l → sortedByKey (insertByKey p l) := by
  intro l
  induction l with
  | nil => intro _; simp [insertByKey, sortedByKey]
  | cons q rest ih =>
    intro hs
    simp only [insertByKey]
    by_cases hle : keyLe p.1 q.1
    · rw [if_pos hle]
      show List.Chain' (fun a b => keyLe a.1 b.1 = true) (p :: q :: rest)
      rw [List.chain'_cons']
      refine ⟨fun hd hh => ?_, hs⟩
      simp only [List.head?_cons, Option.mem_def, Option.some.injEq] at hh
      subst hh
      exact hle
    · rw [if_neg hle]
      have hparts := List.chain'_cons'.mp (show List.Chain' (fun a b => keyLe a.1 b.1 = true) (q :: rest) from hs)
      show List.Chain' (fun a b => keyLe a.1 b.1 = true) (q :: insertByKey p rest)
      rw [List.chain'_cons']
      refine ⟨fun hd hh => ?_, ih hparts.2⟩
      rcases head?_insertByKey p rest with he | he
      · rw [he] at hh
        simp only [Option.mem_def, Option.some.injEq] at hh
        subst hh
        exact keyLe_total _ _ (by simpa using hle)
      · rw [he] at hh
        exact hparts.1 hd hh

theorem sortByKey_sorted : ∀ l, sortedByKey (sortByKey l) := by
  intro l
  induction l with
  | nil => simp [sortByKey, sortedByKey]
  | cons p rest ih => exact insertByKey_sorted ih

theorem sortByKey_of_sorted : ∀ {l}, sortedByKey l → sortByKey l = l := by
  intro l
  induction l with
  | nil => intro _; rfl
  | cons p rest ih =>
    intro hs
    simp only [sortedByKey, List.chain'_cons'] at hs
    simp only [sortByKey, ih hs.2]
    cases rest with
    | nil => rfl
    | cons q rest2 =>
      have hle : keyLe p.1 q.1 = true := hs.1 q rfl
      simp [insertByKey, hle]

theorem mem_sortByKey {x : String × GoVal} :
    ∀ {l : List (String × GoVal)}, x ∈ sortByKey l → x ∈ l := by
  intro l
  induction l with
  | nil => intro h; simp [sortByKey] at h
  | cons p rest ih =>
    intro h
    simp only [sortByKey] at h
    rcases mem_insertByKey h with h | h
    · simp [h]
    · exact List.mem_cons_of_mem _ (ih h)

theorem marshalRTList_id : ∀ {xs : List GoVal}, (∀ x ∈ xs, marshalRT x = x) →
    marshalRTList xs = xs := by
  intro xs
  induction xs with
  | nil => intro _; rfl
  | cons x rest ih =>
    intro h
    simp only [marshalRTList]
    rw [h x (List.mem_cons_self _ _), ih (fun y hy => h y (List.mem_cons_of_mem _ hy))]

theorem marshalRTKVs_id : ∀ {l : List (String × GoVal)}, (∀ p ∈ l, marshalRT p.2 = p.2) →
    marshalRTKVs l = l := by
  intro l
  induction l with
  | nil => intro _; rfl
  | cons p rest ih =>
    intro h
    obtain ⟨k, v⟩ := p
    simp only [marshalRTKVs]
    rw [h (k, v) (List.mem_cons_self _ _), ih (fun q hq => h q (List.mem_cons_of_mem _ hq))]

theorem mem_marshalRTKVs {x : String × GoVal} :
    ∀ {l : List (String × GoVal)}, x ∈ marshalRTKVs l → ∃ q ∈ l, x = (q.1, marshalRT q.2) := by
  intro l
  induction l with
  | nil => intro h; simp [marshalRTKVs] at h
  | cons p rest ih =>
    intro h
    obtain ⟨k, v⟩ := p
    simp only [marshalRTKVs, List.mem_cons] at h
    rcases h with h | h
    · exact ⟨(k, v), List.mem_cons_self _ _, h⟩
    · obtain ⟨q, hq, hx⟩ := ih h
      exact ⟨q, List.mem_cons_of_mem _ hq, hx⟩

theorem marshalRTList_idem_of {xs : List GoVal}
    (h : ∀ x ∈ xs, marshalRT (marshalRT x) = marshalRT x) :
    marshalRTList (marshalRTList xs) = marshalRTList xs := by
  induction xs with
  | nil => rfl
  | cons x rest ih =>
    simp only [marshalRTList]
    rw [h x (List.mem_cons_self _ _), ih (fun y hy => h y (List.mem_cons_of_mem _ hy))]

theorem marshalRT_kvs_step {kvs : List (String × GoVal)}
    (h : ∀ p ∈ kvs, marshalRT (marshalRT p.2) = marshalRT p.2) :
    sortByKey (marshalRTKVs (sortByKey (marshalRTKVs kvs))) = sortByKey (marshalRTKVs kvs) := by
  have hfix : ∀ p ∈ sortByKey (marshalRTKVs kvs), marshalRT p.2 = p.2 := by
    intro p hp
    obtain ⟨q, hq, hpq⟩ := mem_marshalRTKVs (mem_sortByKey hp)
    rw [hpq]
    exact h q hq
  rw [marshalRTKVs_id hfix, sortByKey_of_sorted (sortByKey_sorted _)]

/-- The marshal/unmarshal round trip is idempotent. -/
theorem marshalRT_idem : ∀ v, marshalRT (marshalRT v) = marshalRT v := by
  apply sizeInd
  intro v ih
  match v with
  | .vnil => rfl
  | .vbool b => rfl
  | .vint n => rfl
  | .vfloat q => rfl
  | .vstr s => rfl
  | .verr m => rfl
  | .vptr none => rfl
  | .vptr (some a) =>
    have : sizeOf a < sizeOf (GoVal.vptr (some a)) := by
      simp only [GoVal.vptr.sizeOf_spec, Option.some.sizeOf_spec]
      omega
    simpa [marshalRT] using ih a this
  | .vslice xs =>
    have h : ∀ x ∈ xs, marshalRT (marshalRT x) = marshalRT x :=
      fun x hx => ih x (sizeOf_lt_of_mem_list hx)
    simp only [marshalRT]
    rw [marshalRTList_idem_of h]
  | .vmap kvs =>
    have h : ∀ p ∈ kvs, marshalRT (marshalRT p.2) = marshalRT p.2 := by
      intro p hp
      obtain ⟨k, w⟩ := p
      apply ih
      have := sizeOf_val_lt_of_mem_kvs hp
      simp only [GoVal.vmap.sizeOf_spec]
      omega
    simp only [marshalRT]
    rw [marshalRT_kvs_step h]
  | .vstruct fs =>
    have h : ∀ p ∈ fs, marshalRT (marshalRT p.2) = marshalRT p.2 := by
      intro p hp
      obtain ⟨k, w⟩ := p
      apply ih
      have := sizeOf_val_lt_of_mem_kvs hp
      simp only [GoVal.vstruct.sizeOf_spec]
      omega
    simp only [marshalRT]
    rw [marshalRT_kvs_step h]

theorem applyOpts_append : ∀ (a b : List CmpOption) (x y : GoVal),
    applyOpts (a ++ b) x y =
      match applyOpts a x y with
      | some r => some r
      | none => applyOpts b x y := by
  intro a
  induction a with
  | nil => intro b x y; rfl
  | cons o rest ih =>
    intro b x y
    simp only [List.cons_append, applyOpts]
    cases o x y with
    | some r => rfl
    | none => exact ih b x y

theorem cmpEqual_append_of_none {a : List CmpOption} {x y : GoVal}
    (h : applyOpts a x y = none) (b : List CmpOption) :
    cmpEqual (a ++ b) x y = cmpEqual b x y := by
  simp only [cmpEqual, applyOpts_append, h]

theorem cmpEqual_nil (x y : GoVal) : cmpEqual [] x y = Except.ok (deepEq x y) := rfl

theorem cmpEqual_nil_fun : cmpEqual [] = fun x y => Except.ok (deepEq x y) := rfl

theorem findIdxE_pure (eq : GoVal → GoVal → Bool) (w : GoVal) :
    ∀ got, findIdxE (fun g => Except.ok (eq g w)) got =
      Except.ok (goFindIdx (fun g => eq g w) got) := by
  intro got
  induction got with
  | nil => rfl
  | cons g rest ih =>
    simp only [findIdxE, goFindIdx, ih]
    by_cases hg : eq g w
    · simp [hg]
    · simp only [Bool.not_eq_true] at hg
      simp only [hg]
      cases goFindIdx (fun g => eq g w) rest with
      | none => simp
      | some i => simp

theorem removeFirst_eq_goFindIdx (eq : GoVal → GoVal → Bool) (w : GoVal) :
    ∀ got, removeFirst eq got w =
      (goFindIdx (fun g => eq g w) got).map (fun i => got.eraseIdx i) := by
  intro got
  induction got with
  | nil => rfl
  | cons g rest ih =>
    simp only [removeFirst, goFindIdx]
    by_cases hg : eq g w
    · simp [hg, List.eraseIdx]
    · simp only [Bool.not_eq_true] at hg
      simp only [hg, if_false, Bool.false_eq_true, ih]
      cases goFindIdx (fun g => eq g w) rest with
      | none => rfl
      | some i => simp [List.eraseIdx]

/-- The recursive helper computes exactly the greedy first-fit missing
list, for every nonempty `want` and under every panic-free equivalence. -/
theorem sliceContainsAllOf_pure (eq : GoVal → GoVal → Bool) :
    ∀ (want : List GoVal), want ≠ [] → ∀ (got acc : List GoVal),
      sliceContainsAllOf (fun x y => Except.ok (eq x y)) got want acc =
        Except.ok (acc ++ greedyMissingSpec eq got want) := by
  intro want
  induction want with
  | nil => intro h; exact absurd rfl h
  | cons w ws ih =>
    intro _ got acc
    simp only [sliceContainsAllOf, findIdxE_pure, greedyMissingSpec,
      removeFirst_eq_goFindIdx]
    cases hidx : goFindIdx (fun g => eq g w) got with
    | some i =>
      simp only [Option.map_some']
      cases ws with
      | nil => simp [greedyMissingSpec]
      | cons w2 ws2 =>
        simp only [List.length_cons, Nat.succ_sub_one]
        rw [if_pos (Nat.succ_pos _)]
        exact ih (by simp) (got.eraseIdx i) acc
    | none =>
      simp only [Option.map_none']
      cases ws with
      | nil => simp [greedyMissingSpec]
      | cons w2 ws2 =>
        rw [if_pos (by simp)]
        rw [ih (by simp) got (acc ++ [w])]
        simp

/-- Greedy matching of a list against itself under a reflexive
equivalence consumes everything: the missing list is empty. -/
theorem greedyMissingSpec_self (eq : GoVal → GoVal → Bool)
    (hrefl : ∀ x, eq x x = true) : ∀ S, greedyMissingSpec eq S S = [] := by
  intro S
  induction S with
  | nil => rfl
  | cons g rest ih =>
    simp only [greedyMissingSpec, removeFirst, hrefl g, if_pos]
    exact ih

/-- Under an always-true equivalence the greedy procedure consumes one
`got` element per wanted element, so nothing is missing as long as `got`
is at least as long as `want`. -/
theorem greedyMissingSpec_allTrue :
    ∀ (want got : List GoVal), want.length ≤ got.length →
      greedyMissingSpec (fun _ _ => true) got want = [] := by
  intro want
  induction want with
  | nil => intro got _; rfl
  | cons w ws ih =>
    intro got hlen
    cases got with
    | nil => simp at hlen
    | cons g rest =>
      simp only [greedyMissingSpec, removeFirst, if_pos]
      exact ih rest (by simpa using hlen)

theorem assertEqualRun_of_ok_true {e : Except String String} {opts D : List CmpOption}
    {got want : GoVal} (h : cmpEqual (opts ++ D) got want = Except.ok true) :
    assertEqualRun e opts D got want = (true, []) := by
  simp [assertEqualRun, cmpDiff, h]

theorem cmpEqual_reg_alwaysEq {opts base : List CmpOption} {x y : GoVal}
    (h : applyOpts (opts ++ base) x y = none) :
    cmpEqual (opts ++ (base ++ [alwaysEqOpt])) x y = Except.ok true := by
  rw [show opts ++ (base ++ [alwaysEqOpt]) = (opts ++ base) ++ [alwaysEqOpt] from
    (List.append_assoc _ _ _).symm, cmpEqual_append_of_none h]
  rfl

/-- C4: a custom comparator that panics during comparison is caught at the
comparison boundary by both `Equal` (`assertEqual`) and `NotEqual`
(`assertNotEqual`); the failure message begins with "diff error" and the
assertion returns false instead of propagating the fault. -/
theorem C4_diff_error_caught (arg : ArgSrc) (opts D : List CmpOption)
    (got want : GoVal) (e : String)
    (h : cmpEqual (opts ++ D) got want = Except.error e) :
    EqualRun arg opts D got want = (false, ["diff error: " ++ e])
    ∧ NotEqualRun arg opts D got want = (false, ["diff error: " ++ e])
    ∧ ∃ tail, "diff error: " ++ e = "diff error" ++ tail := by
  refine ⟨?_, ?_, ⟨": " ++ e, ?_⟩⟩
  · simp [EqualRun, assertEqualRun, cmpDiff, h]
  · simp [NotEqualRun, assertNotEqualRun, cmpDiff, h]
  · rw [← String.append_assoc]
    rfl

/-- Witness for C4 at a concrete panicking comparator. -/
theorem C4_witness :
    EqualRun (ArgSrc.found "id") [panicOpt] defaultOpts (GoVal.vint 1) (GoVal.vint 2)
      = (false, ["diff error: bad custom comparer"])
    ∧ NotEqualRun (ArgSrc.found "id") [panicOpt] defaultOpts (GoVal.vint 1) (GoVal.vint 2)
      = (false, ["diff error: bad custom comparer"])
    ∧ ∃ tail, "diff error: bad custom comparer" = "diff error" ++ tail :=
  C4_diff_error_caught (ArgSrc.found "id") [panicOpt] defaultOpts
    (GoVal.vint 1) (GoVal.vint 2) "bad custom comparer" rfl

/-- C10: `Contains` and `SliceContainsAllOf` called with the untyped nil
interface as `got` panic in the kind inspection (`reflect.TypeOf(got)` is
nil) before any usage-failure message is reported: the call neither
returns false with a message nor returns true. -/
theorem C10_nil_got_panics (want : GoVal) (arg : ArgSrc) (opts D : List CmpOption) :
    ContainsRun arg opts D GoVal.vnil want = Except.error nilDerefMsg
    ∧ SliceContainsAllOfRun arg opts D GoVal.vnil want = Except.error nilDerefMsg :=
  ⟨rfl, rfl⟩

/-- Counterexample to C8: the failing `NotNil` message is
"thing: got <nil>, want not nil", not "thing was not nil" as the claim
states. -/
theorem C8_counterexample :
    NotNilRun (ArgSrc.found "thing") GoVal.vnil
      = Except.ok (false, ["thing: got <nil>, want not nil"])
    ∧ "thing: got <nil>, want not nil" ≠ "thing was not nil" :=
  ⟨rfl, by decide⟩

/-- C8 as amended: failing nil/emptiness checks report
"<label>: got <nil>, want not nil", "<label>: got <value>, want empty" and
"<label>: got <value>, want not empty" respectively, with the leading
"<label>: " part omitted when the label is empty. -/
theorem C8_message_formats :
    (∀ ex v, isNil v = true → NotNilRun (ArgSrc.found ex) v
      = Except.ok (false, [labelColonMsg ex "got <nil>, want not nil"]))
    ∧ (∀ ex v, isEmpty v = false → EmptyRun (ArgSrc.found ex) v
      = Except.ok (false, [labelColonMsg ex ("got " ++ fmtVal v ++ ", want empty")]))
    ∧ (∀ ex v, isEmpty v = true → NotEmptyRun (ArgSrc.found ex) v
      = Except.ok (false, [labelColonMsg ex ("got " ++ fmtVal v ++ ", want not empty")])) := by
  refine ⟨?_, ?_, ?_⟩
  · intro ex v h
    simp [NotNilRun, h, getArgRun]
  · intro ex v h
    simp [EmptyRun, h, getArgRun]
  · intro ex v h
    simp [NotEmptyRun, h, getArgRun]

/-- Witness for C8 at concrete failing inputs. -/
theorem C8_witness :
    NotNilRun (ArgSrc.found "thing") GoVal.vnil
      = Except.ok (false, [labelColonMsg "thing" "got <nil>, want not nil"])
    ∧ EmptyRun (ArgSrc.found "val") (GoVal.vstr "abc")
      = Except.ok (false, [labelColonMsg "val" ("got " ++ fmtVal (GoVal.vstr "abc") ++ ", want empty")])
    ∧ NotEmptyRun (ArgSrc.found "val") (GoVal.vstr "")
      = Except.ok (false, [labelColonMsg "val" ("got " ++ fmtVal (GoVal.vstr "") ++ ", want not empty")]) :=
  ⟨C8_message_formats.1 "thing" GoVal.vnil rfl,
   C8_message_formats.2.1 "val" (GoVal.vstr "abc") rfl,
   C8_message_formats.2.2 "val" (GoVal.vstr "") rfl⟩

/-- C9: for every value of a kind routed to the default branch of
`isEmpty` (scalars and structs: neither nil, nor length-bearing, nor a
pointer), `Empty` succeeds exactly when the value equals the zero value of
its dynamic type. -/
theorem C9_empty_iff_zero (ex : String) (v : GoVal) (h : defaultKind v = true) :
    EmptyRun (ArgSrc.found ex) v = Except.ok (true, []) ↔ v = zeroOf v := by
  have hiso : isEmpty v = deepEq v (zeroOf v) := by
    match v, h with
    | .vbool b, _ => rfl
    | .vint n, _ => rfl
    | .vfloat q, _ => rfl
    | .vstruct fs, _ => rfl
  constructor
  · intro he
    cases hb : isEmpty v with
    | true =>
      rw [hiso] at hb
      exact deepEq_sound v (zeroOf v) hb
    | false =>
      rw [EmptyRun] at he
      simp only [hb, Bool.not_false, if_pos, getArgRun] at he
      simp at he
  · intro hz
    have hb : isEmpty v = true := by
      rw [hiso, ← hz]
      exact deepEq_refl v
    simp [EmptyRun, hb]

/-- Witness for C9 at the zero integer. -/
theorem C9_witness :
    EmptyRun (ArgSrc.found "val") (GoVal.vint 0) = Except.ok (true, [])
      ↔ GoVal.vint 0 = zeroOf (GoVal.vint 0) :=
  C9_empty_iff_zero "val" (GoVal.vint 0) rfl

/-- Counterexample to C7: reflexivity fails on the empty sequence: the
helper indexes `want[0]` and the call panics with an index-out-of-range
runtime error instead of succeeding. -/
theorem C7_counterexample :
    SliceContainsAllOfRun (ArgSrc.found "out") [] defaultOpts
      (GoVal.vslice []) (GoVal.vslice []) = Except.error idxRangeMsg := rfl

/-- C7 as amended: multiset-subset containment is reflexive on every
nonempty sequence: `SliceContainsAllOf(S, S)` with no per-call options
succeeds, for any registered defaults (which it ignores). -/
theorem C7_reflexive_nonempty (S : List GoVal) (hS : S ≠ []) (arg : ArgSrc)
    (D : List CmpOption) :
    SliceContainsAllOfRun arg [] D (GoVal.vslice S) (GoVal.vslice S)
      = Except.ok (true, []) := by
  have h1 : sliceContainsAllOf (cmpEqual []) S S [] = Except.ok [] := by
    rw [cmpEqual_nil_fun, sliceContainsAllOf_pure deepEq S hS S [],
      greedyMissingSpec_self deepEq deepEq_refl S]
    rfl
  simp [SliceContainsAllOfRun, kindOf, sliceElems, h1]

/-- Witness for C7 at a concrete singleton sequence. -/
theorem C7_witness :
    SliceContainsAllOfRun (ArgSrc.found "out") [] defaultOpts
      (GoVal.vslice [GoVal.vstr "a"]) (GoVal.vslice [GoVal.vstr "a"])
      = Except.ok (true, []) :=
  C7_reflexive_nonempty [GoVal.vstr "a"] (List.cons_ne_nil _ _)
    (ArgSrc.found "out") defaultOpts

/-- Counterexample to C1: for the empty `want` the greedy procedure of the
claim produces an empty missing list, hence success, but the code indexes
`want[0]` unconditionally and the call panics instead. -/
theorem C1_counterexample :
    greedyMissingSpec deepEq [GoVal.vint 1] [] = []
    ∧ SliceContainsAllOfRun (ArgSrc.found "out") [] defaultOpts
        (GoVal.vslice [GoVal.vint 1]) (GoVal.vslice []) = Except.error idxRangeMsg :=
  ⟨rfl, rfl⟩

/-- C1 as amended: for every nonempty `want` and panic-free supplied
equivalence, the helper `sliceContainsAllOf` computes exactly the greedy
first-fit missing list (scan remaining `got` left-to-right, consume the
first equal element, otherwise accumulate), and `SliceContainsAllOf`
succeeds exactly when that missing list is empty; for the empty `want` the
call faults instead. -/
theorem C1_greedy_first_fit (eq : GoVal → GoVal → Bool) (opts : List CmpOption)
    (hceq : ∀ x y, cmpEqual opts x y = Except.ok (eq x y))
    (g w : List GoVal) (hw : w ≠ []) (arg : ArgSrc) (D : List CmpOption) :
    sliceContainsAllOf (cmpEqual opts) g w [] = Except.ok (greedyMissingSpec eq g w)
    ∧ (SliceContainsAllOfRun arg opts D (GoVal.vslice g) (GoVal.vslice w)
        = Except.ok (true, []) ↔ greedyMissingSpec eq g w = []) := by
  have hfun : cmpEqual opts = fun x y => Except.ok (eq x y) :=
    funext fun x => funext fun y => hceq x y
  have h1 : sliceContainsAllOf (cmpEqual opts) g w [] =
      Except.ok (greedyMissingSpec eq g w) := by
    rw [hfun]
    simpa using sliceContainsAllOf_pure eq w hw g []
  refine ⟨h1, ?_⟩
  constructor
  · intro hok
    by_cases hg : greedyMissingSpec eq g w = []
    · exact hg
    · exfalso
      have hlen : (greedyMissingSpec eq g w).length > 0 := by
        cases hgl : greedyMissingSpec eq g w with
        | nil => exact absurd hgl hg
        | cons a l => simp [hgl]
      simp only [SliceContainsAllOfRun, kindOf, sliceElems, h1] at hok
      rw [if_neg (by simp)] at hok
      rw [if_neg (by simp)] at hok
      rw [if_pos hlen] at hok
      rw [show cmpDiff opts (GoVal.vslice (greedyMissingSpec eq g w)) GoVal.vnil
          = Except.ok (if eq (GoVal.vslice (greedyMissingSpec eq g w)) GoVal.vnil then ""
              else renderDiff (GoVal.vslice (greedyMissingSpec eq g w)) GoVal.vnil) from by
        simp [cmpDiff, hceq]] at hok
      cases harg : getArgRun arg with
      | error e => rw [harg] at hok; simp at hok
      | ok ex => rw [harg] at hok; simp at hok
  · intro hempt
    simp [SliceContainsAllOfRun, kindOf, sliceElems, h1, hempt]

/-- Witness for C1 at a concrete pair of sequences. -/
theorem C1_witness :
    sliceContainsAllOf (cmpEqual []) [GoVal.vint 1] [GoVal.vint 1] []
      = Except.ok (greedyMissingSpec deepEq [GoVal.vint 1] [GoVal.vint 1])
    ∧ (SliceContainsAllOfRun (ArgSrc.found "out") [] defaultOpts
        (GoVal.vslice [GoVal.vint 1]) (GoVal.vslice [GoVal.vint 1])
        = Except.ok (true, [])
      ↔ greedyMissingSpec deepEq [GoVal.vint 1] [GoVal.vint 1] = []) :=
  C1_greedy_first_fit deepEq [] (fun x y => rfl) [GoVal.vint 1] [GoVal.vint 1]
    (List.cons_ne_nil _ _) (ArgSrc.found "out") defaultOpts

/-- Counterexample to C3: when the caller's source file is unreadable the
label does not resolve to the empty string: the resolver panics and the
fault escapes a `Contains` call (which invokes the resolver outside any
recover). -/
theorem C3_counterexample :
    ContainsRun ArgSrc.unreadable [] defaultOpts (GoVal.vstr "a") (GoVal.vstr "b")
      = Except.error "open source file: no such file or directory" := rfl

/-- C3 as amended: only the no-matching-call-expression case degrades to
an empty label, and the failure message is then rendered without a leading
label; an unreadable or unparsable source makes the resolver panic, and
that panic escapes assertion operations without a recover (such as
`Contains`), while inside `Equal` it is caught by the comparison-boundary
recover and reported as a "diff error" failure. -/
theorem C3_label_faults :
    getArgRun ArgSrc.noMatch = Except.ok ""
    ∧ (∀ opts D g w, strContains g w = false →
        ContainsRun ArgSrc.noMatch opts D (GoVal.vstr g) (GoVal.vstr w)
          = Except.ok (false, ["(" ++ goQuote g ++ ") does not contain: " ++ goQuote w]))
    ∧ (∀ o, o = ArgSrc.unreadable ∨ o = ArgSrc.parseError →
        ∃ e, getArgRun o = Except.error e)
    ∧ (∀ opts D g w, strContains g w = false →
        ContainsRun ArgSrc.unreadable opts D (GoVal.vstr g) (GoVal.vstr w)
          = Except.error "open source file: no such file or directory")
    ∧ (∀ opts D got want d, cmpDiff (opts ++ D) got want = Except.ok d → d ≠ "" →
        EqualRun ArgSrc.unreadable opts D got want
          = (false, ["diff error: open source file: no such file or directory"])) := by
  refine ⟨rfl, ?_, ?_, ?_, ?_⟩
  · intro opts D g w h
    simp [ContainsRun, kindOf, h, getArgRun, labelSpaceMsg]
  · intro o ho
    rcases ho with h | h <;> subst h <;> exact ⟨_, rfl⟩
  · intro opts D g w h
    simp [ContainsRun, kindOf, h, getArgRun]
  · intro opts D got want d hd hne
    simp [EqualRun, assertEqualRun, hd, hne, getArgRun]

/-- Witness for C3 at concrete inputs. -/
theorem C3_witness :
    ContainsRun ArgSrc.noMatch [] defaultOpts (GoVal.vstr "a") (GoVal.vstr "b")
      = Except.ok (false, ["(" ++ goQuote "a" ++ ") does not contain: " ++ goQuote "b"])
    ∧ ContainsRun ArgSrc.unreadable [] defaultOpts (GoVal.vstr "a") (GoVal.vstr "b")
      = Except.error "open source file: no such file or directory"
    ∧ EqualRun ArgSrc.unreadable [] defaultOpts (GoVal.vint 1) (GoVal.vint 2)
      = (false, ["diff error: open source file: no such file or directory"]) :=
  ⟨C3_label_faults.2.1 [] defaultOpts "a" "b" rfl,
   C3_label_faults.2.2.2.1 [] defaultOpts "a" "b" rfl,
   C3_label_faults.2.2.2.2 [] defaultOpts (GoVal.vint 1) (GoVal.vint 2)
     (renderDiff (GoVal.vint 1) (GoVal.vint 2)) rfl (by decide)⟩

/-- Counterexample to C6: `Contains` on a string `got` with a non-string
`want` does not report a usage failure: the type assertion `want.(string)`
panics and the fault escapes the call. -/
theorem C6_counterexample :
    ContainsRun (ArgSrc.found "out") [] defaultOpts (GoVal.vstr "abc") (GoVal.vint 1)
      = Except.error ifaceConvMsg := rfl

/-- C6 as amended: for a string `got` and string `want`, `Contains`
returns a boolean equal to true substring containment (so false only when
the substring is truly absent, and success exactly on presence); a
non-string `want` against a string `got` makes the call panic with an
interface-conversion fault instead of reporting a usage failure. -/
theorem C6_string_contains :
    (∀ arg opts D g w b msgs,
      ContainsRun arg opts D (GoVal.vstr g) (GoVal.vstr w) = Except.ok (b, msgs) →
        b = strContains g w)
    ∧ (∀ arg opts D g w, strContains g w = true →
        ContainsRun arg opts D (GoVal.vstr g) (GoVal.vstr w) = Except.ok (true, []))
    ∧ (∀ arg opts D g w', (∀ s, w' ≠ GoVal.vstr s) →
        ContainsRun arg opts D (GoVal.vstr g) w' = Except.error ifaceConvMsg) := by
  refine ⟨?_, ?_, ?_⟩
  · intro arg opts D g w b msgs h
    by_cases hc : strContains g w
    · rw [hc]
      simp only [ContainsRun, kindOf, hc, if_true] at h
      simp only [Except.ok.injEq, Prod.mk.injEq] at h
      exact h.1.symm
    · simp only [Bool.not_eq_true] at hc
      rw [hc]
      simp only [ContainsRun, kindOf, hc] at h
      rw [if_neg (by simp)] at h
      cases harg : getArgRun arg with
      | error e => rw [harg] at h; simp at h
      | ok ex =>
        rw [harg] at h
        simp only [Except.ok.injEq, Prod.mk.injEq] at h
        exact h.1.symm
  · intro arg opts D g w h
    simp [ContainsRun, kindOf, h]
  · intro arg opts D g w' hw
    match w', hw with
    | GoVal.vnil, _ => rfl
    | GoVal.vbool b, _ => rfl
    | GoVal.vint n, _ => rfl
    | GoVal.vfloat q, _ => rfl
    | GoVal.vstr s, hw => exact absurd rfl (hw s)
    | GoVal.verr m, _ => rfl
    | GoVal.vslice xs, _ => rfl
    | GoVal.vmap kvs, _ => rfl
    | GoVal.vptr p, _ => rfl
    | GoVal.vstruct fs, _ => rfl

/-- Witness for C6 at concrete inputs. -/
theorem C6_witness :
    ContainsRun (ArgSrc.found "out") [] defaultOpts
      (GoVal.vstr "red orange yellow") (GoVal.vstr "yellow") = Except.ok (true, [])
    ∧ ContainsRun (ArgSrc.found "out") [] defaultOpts
        (GoVal.vstr "abc") (GoVal.vint 1) = Except.error ifaceConvMsg :=
  ⟨C6_string_contains.2.1 (ArgSrc.found "out") [] defaultOpts
      "red orange yellow" "yellow" rfl,
   C6_string_contains.2.2 (ArgSrc.found "out") [] defaultOpts
      "abc" (GoVal.vint 1) (fun s h => GoVal.noConfusion h)⟩

/-- Counterexample to C2: `SliceContainsAllOf` never consults the
registered defaults, so registering an always-equal comparator leaves a
previously-failing multiset containment check failing: got `[1]` against
want `[2]` returns false both before and after registration. -/
theorem C2_counterexample :
    (SliceContainsAllOfRun (ArgSrc.found "out") [] defaultOpts
        (GoVal.vslice [GoVal.vint 1]) (GoVal.vslice [GoVal.vint 2])).map Prod.fst
      = Except.ok false
    ∧ (SliceContainsAllOfRun (ArgSrc.found "out") []
        (RegisterOptions defaultOpts [alwaysEqOpt])
        (GoVal.vslice [GoVal.vint 1]) (GoVal.vslice [GoVal.vint 2])).map Prod.fst
      = Except.ok false :=
  ⟨rfl, rfl⟩

/-- C2 as amended: registration is append-only (previously registered
defaults stay in place, in order, as a prefix); after registering an
always-equal comparator, `Equal` succeeds on every pair on which no
earlier option applies, and `Contains` over a slice succeeds whenever no
earlier option applies to its first element; `SliceContainsAllOf` ignores
registered defaults entirely (its result is unchanged by registration),
but passing the always-equal comparator as a per-call option makes it
succeed whenever `want` is nonempty and no longer than `got`. -/
theorem C2_register_always_equal :
    (∀ cur opts, RegisterOptions cur opts = cur ++ opts
      ∧ cur <+: RegisterOptions cur opts)
    ∧ (∀ arg opts D got want,
        applyOpts (opts ++ (defaultOpts ++ D)) got want = none →
        EqualRun arg opts (RegisterOptions (RegisterOptions defaultOpts D) [alwaysEqOpt])
          got want = (true, []))
    ∧ (∀ ex opts D g rest want,
        applyOpts (opts ++ (defaultOpts ++ D)) g want = none →
        ContainsRun (ArgSrc.found ex) opts
          (RegisterOptions (RegisterOptions defaultOpts D) [alwaysEqOpt])
          (GoVal.vslice (g :: rest)) want = Except.ok (true, []))
    ∧ (∀ arg opts D got want,
        SliceContainsAllOfRun arg opts (RegisterOptions D [alwaysEqOpt]) got want
          = SliceContainsAllOfRun arg opts D got want)
    ∧ (∀ arg D got want, want ≠ [] → want.length ≤ got.length →
        SliceContainsAllOfRun arg [alwaysEqOpt] D (GoVal.vslice got) (GoVal.vslice want)
          = Except.ok (true, [])) := by
  refine ⟨?_, ?_, ?_, ?_, ?_⟩
  · intro cur opts
    exact ⟨rfl, ⟨opts, rfl⟩⟩
  · intro arg opts D got want h
    exact assertEqualRun_of_ok_true (cmpEqual_reg_alwaysEq h)
  · intro ex opts D g rest want h
    have hce : cmpEqual (opts ++ ((defaultOpts ++ D) ++ [alwaysEqOpt])) g want
        = Except.ok true := cmpEqual_reg_alwaysEq h
    simp only [ContainsRun, kindOf, getArgRun, sliceElems, sliceContains,
      sliceContainsLoop, RegisterOptions, hce]
  · intro arg opts D got want
    rfl
  · intro arg D got want hw hlen
    have hfun : cmpEqual [alwaysEqOpt]
        = fun x y => Except.ok ((fun (_ _ : GoVal) => true) x y) := rfl
    have h1 : sliceContainsAllOf (cmpEqual [alwaysEqOpt]) got want [] = Except.ok [] := by
      rw [hfun, sliceContainsAllOf_pure (fun _ _ => true) want hw got [],
        greedyMissingSpec_allTrue want got hlen]
      rfl
    simp [SliceContainsAllOfRun, kindOf, sliceElems, h1]

/-- Witness for C2 at concrete inputs. -/
theorem C2_witness :
    EqualRun (ArgSrc.found "id") []
      (RegisterOptions (RegisterOptions defaultOpts []) [alwaysEqOpt])
      (GoVal.vint 1) (GoVal.vint 2) = (true, [])
    ∧ ContainsRun (ArgSrc.found "out") []
        (RegisterOptions (RegisterOptions defaultOpts []) [alwaysEqOpt])
        (GoVal.vslice [GoVal.vint 5]) (GoVal.vint 0) = Except.ok (true, [])
    ∧ SliceContainsAllOfRun (ArgSrc.found "out") [alwaysEqOpt] defaultOpts
        (GoVal.vslice [GoVal.vint 1]) (GoVal.vslice [GoVal.vint 2])
        = Except.ok (true, []) :=
  ⟨C2_register_always_equal.2.1 (ArgSrc.found "id") [] [] (GoVal.vint 1) (GoVal.vint 2) rfl,
   C2_register_always_equal.2.2.1 "out" [] [] (GoVal.vint 5) [] (GoVal.vint 0) rfl,
   C2_register_always_equal.2.2.2.2 (ArgSrc.found "out") defaultOpts
     [GoVal.vint 1] [GoVal.vint 2] (List.cons_ne_nil _ _) (Nat.le_refl _)⟩

theorem marshalRT_fix_of_eq {v r : GoVal} (h : some (marshalRT v) = some r) :
    marshalRT r = r := by
  have hvr : marshalRT v = r := Option.some.inj h
  rw [← hvr, marshalRT_idem]

/-- Counterexample to C5: JSON normalization is not idempotent on every
value on which it succeeds: a pointer to the string "[1]" normalizes to
the string "[1]" (the marshal/unmarshal round trip follows the pointer),
and normalizing that result triggers the raw-JSON special case and parses
it to the array [1]. -/
theorem C5_counterexample :
    toJSON jsonParse1 (GoVal.vptr (some (GoVal.vstr "[1]"))) = some (GoVal.vstr "[1]")
    ∧ toJSON jsonParse1 (GoVal.vstr "[1]") = some (GoVal.vslice [GoVal.vfloat 1])
    ∧ GoVal.vslice [GoVal.vfloat 1] ≠ GoVal.vstr "[1]" :=
  ⟨rfl, rfl, fun h => GoVal.noConfusion h⟩

/-- C5 as amended: normalization is idempotent on every value whose
normalization result is not itself a string beginning with a brace or a
bracket, for any parser whose outputs are fixed points of the
marshal/unmarshal round trip (as `json.Unmarshal` outputs are). -/
theorem C5_idempotent (parse : String → Option GoVal)
    (hp : ∀ s w, parse s = some w → marshalRT w = w)
    (v r : GoVal) (h : toJSON parse v = some r) (hr : notTopRawStr r) :
    toJSON parse r = some r := by
  have hfix : marshalRT r = r := by
    match v, h with
    | GoVal.vstr s, h =>
      rw [toJSON] at h
      by_cases hraw : goStartsWith s "\x7b" || goStartsWith s "["
      · rw [if_pos hraw] at h
        exact hp s r h
      · rw [if_neg hraw] at h
        have : GoVal.vstr s = r := by simpa [marshalRT] using h
        rw [← this]
        rfl
    | GoVal.vnil, h => exact marshalRT_fix_of_eq h
    | GoVal.vbool b, h => exact marshalRT_fix_of_eq h
    | GoVal.vint n, h => exact marshalRT_fix_of_eq h
    | GoVal.vfloat q, h => exact marshalRT_fix_of_eq h
    | GoVal.verr m, h => exact marshalRT_fix_of_eq h
    | GoVal.vslice xs, h => exact marshalRT_fix_of_eq h
    | GoVal.vmap kvs, h => exact marshalRT_fix_of_eq h
    | GoVal.vptr p, h => exact marshalRT_fix_of_eq h
    | GoVal.vstruct fs, h => exact marshalRT_fix_of_eq h
  match r, hr with
  | GoVal.vstr s2, hr =>
    rw [toJSON, if_neg (by simp [notTopRawStr] at hr; simp [hr])]
    exact congrArg some hfix
  | GoVal.vnil, _ => simpa [toJSON] using congrArg some hfix
  | GoVal.vbool b, _ => simpa [toJSON] using congrArg some hfix
  | GoVal.vint n, _ => simpa [toJSON] using congrArg some hfix
  | GoVal.vfloat q, _ => simpa [toJSON] using congrArg some hfix
  | GoVal.verr m, _ => simpa [toJSON] using congrArg some hfix
  | GoVal.vslice xs, _ => simpa [toJSON] using congrArg some hfix
  | GoVal.vmap kvs, _ => simpa [toJSON] using congrArg some hfix
  | GoVal.vptr p, _ => simpa [toJSON] using congrArg some hfix
  | GoVal.vstruct fs, _ => simpa [toJSON] using congrArg some hfix

/-- Witness for C5 at a concrete integer. -/
theorem C5_witness : toJSON jsonParseNone (GoVal.vfloat 3) = some (GoVal.vfloat 3) :=
  C5_idempotent jsonParseNone (fun s w h => Option.noConfusion h)
    (GoVal.vint 3) (GoVal.vfloat 3) rfl trivial

end AssertGo
